import Mathlib

/-!
# Verification of the sanabotti word-chain validation pipeline

A shallow embedding, in Lean 4, of the core of the `sanabotti` word-chain
game validator: the rules validator (`src/validation/rules.rs`), the game
state actor (`src/actors/game_state.rs`), the LLM batch validator
(`src/validation/llm.rs`, `src/actors/llm_validator.rs`) and its batch
scheduler.  Rust `String`s are modelled as `List Char` (the code works on
`chars()` vectors), `HashSet`/`HashMap` as membership-equivalent lists, and
the actors as explicit state-passing functions over operation lists.
-/

deriving instance DecidableEq for Except

namespace Sanabotti

/-- A Rust string, modelled as its sequence of unicode scalar values. -/
abbrev Word := List Char

/-- `str::trim`: drop whitespace characters from both ends. -/
def wtrim (s : Word) : Word :=
  ((s.dropWhile Char.isWhitespace).reverse.dropWhile Char.isWhitespace).reverse

/-- `str::to_lowercase`, modelled character-wise. -/
def wlower (s : Word) : Word := s.map Char.toLower

/-- The normalization both arguments of `validate_move` undergo:
`word.trim().to_lowercase()`. -/
def normalize (s : Word) : Word := wlower (wtrim s)

/-- `String::len` in Rust: the UTF-8 byte length (used for the error span). -/
def wbytes (s : Word) : Nat := (s.map Char.utf8Size).sum

/-- The equal-length branch of `check_one_letter_difference`: the number of
positions at which the two words disagree. -/
def countDifferences (w1 w2 : Word) : Nat :=
  (w1.zip w2).countP (fun p => decide (p.1 ≠ p.2))

/-- The two-cursor walk of the unequal-length branch of
`check_one_letter_difference`: advance both cursors on a match, on the first
mismatch advance only the longer word's cursor, fail on a second mismatch.
`found` is the `found_difference` flag. -/
def oneGapMatch (s l : Word) (found : Bool) : Bool :=
  match s, l with
  | [], _ => true
  | _ :: _, [] => true
  | a :: ss, b :: ls =>
    if a = b then oneGapMatch ss ls found
    else if found then false
    else oneGapMatch (a :: ss) ls true

/-- `check_one_letter_difference` from `src/validation/rules.rs`: returns
`(is_valid, optional_violation_span)` where a span is `(offset, byte length)`
as in `SourceSpan::from((0, word2.len()))`. -/
def check_one_letter_difference (word1 word2 : Word) : Bool × Option (Nat × Nat) :=
  let len1 := word1.length
  let len2 := word2.length
  if ((len1 : Int) - (len2 : Int)).natAbs > 1 then (false, none)
  else if len1 = len2 then
    let differences := countDifferences word1 word2
    if differences = 1 then (true, none)
    else if differences = 0 then (false, some (0, wbytes word2))
    else (false, none)
  else
    let (shorter, longer) := if len1 < len2 then (word1, word2) else (word2, word1)
    (oneGapMatch shorter longer false, none)

/-- The validation errors of `error.rs` that `validate_move` can produce. -/
inductive ValidationError where
  | alreadyUsed (word : Word)
  | ruleViolation (word : Word) (span : Option (Nat × Nat)) (reason : String)
deriving DecidableEq

/-- `HashSet::insert`, membership-equivalent model on a list. -/
def insertWord (w : Word) (s : List Word) : List Word :=
  if w ∈ s then s else w :: s

/-- `RulesValidator` holds only its `used_words` set. -/
structure RulesValidator where
  used_words : List Word
deriving DecidableEq

/-- `RulesValidator::validate_move`: normalize both words, reject a reused
candidate with `AlreadyUsed`, apply `check_one_letter_difference`, and on
success insert the candidate into `used_words`.  Returns the Rust result
together with the updated validator state. -/
def validate_move (v : RulesValidator) (previous_word new_word : Word) :
    Except ValidationError Unit × RulesValidator :=
  let prev := normalize previous_word
  let nw := normalize new_word
  if nw ∈ v.used_words then
    (Except.error (ValidationError.alreadyUsed nw), v)
  else
    let r := check_one_letter_difference prev nw
    if r.1 then (Except.ok (), ⟨insertWord nw v.used_words⟩)
    else
      (Except.error (ValidationError.ruleViolation nw r.2
        "Word must differ by exactly one letter (added, removed, or changed)"), v)

/-- `RulesValidator::add_word`: unconditionally insert the normalized word. -/
def add_word (v : RulesValidator) (w : Word) : RulesValidator :=
  ⟨insertWord (normalize w) v.used_words⟩

/-- `RulesValidator::reset`: clear the used-word set. -/
def rulesReset (_v : RulesValidator) : RulesValidator := ⟨[]⟩

/-- The shorter word is obtainable from the longer by deleting exactly one
character. -/
def IsDeletionOf (shorter longer : Word) : Prop :=
  ∃ i, i < longer.length ∧ longer.eraseIdx i = shorter

/-! ### Character-level facts about `Char.toLower` and whitespace -/

lemma char_toNat_ofNat_valid {n : Nat} (h : n.isValidChar) : (Char.ofNat n).toNat = n := by
  rw [Char.ofNat, dif_pos h]
  rfl

lemma char_toLower_def (c : Char) :
    Char.toLower c = if 65 ≤ c.toNat ∧ c.toNat ≤ 90 then Char.ofNat (c.toNat + 32) else c := by
  rfl

lemma char_toNat_toLower (c : Char) :
    (Char.toLower c).toNat = if 65 ≤ c.toNat ∧ c.toNat ≤ 90 then c.toNat + 32 else c.toNat := by
  rw [char_toLower_def]
  split
  · next h => exact char_toNat_ofNat_valid (Or.inl (by omega))
  · rfl

lemma char_toLower_toLower (c : Char) : (Char.toLower c).toLower = c.toLower := by
  by_cases h : 65 ≤ c.toNat ∧ c.toNat ≤ 90
  · have h1 : (Char.toLower c).toNat = c.toNat + 32 := by rw [char_toNat_toLower, if_pos h]
    rw [char_toLower_def (Char.toLower c), h1, if_neg (by omega)]
  · have h1 : c.toLower = c := by rw [char_toLower_def c, if_neg h]
    simp [h1]

lemma char_eq_iff_toNat (c d : Char) : c = d ↔ c.toNat = d.toNat := by
  constructor
  · intro h; rw [h]
  · intro h; exact Char.ext (UInt32.ext h)

lemma char_isWhitespace_iff (c : Char) :
    c.isWhitespace = true ↔ (c.toNat = 32 ∨ c.toNat = 9 ∨ c.toNat = 13 ∨ c.toNat = 10) := by
  unfold Char.isWhitespace
  simp only [Bool.or_eq_true, decide_eq_true_eq]
  rw [char_eq_iff_toNat c ' ', char_eq_iff_toNat c '\t', char_eq_iff_toNat c '\r',
    char_eq_iff_toNat c '\n']
  have e1 : (' ' : Char).toNat = 32 := rfl
  have e2 : ('\t' : Char).toNat = 9 := rfl
  have e3 : ('\r' : Char).toNat = 13 := rfl
  have e4 : ('\n' : Char).toNat = 10 := rfl
  rw [e1, e2, e3, e4]
  tauto

lemma char_isWhitespace_toLower (c : Char) :
    (Char.toLower c).isWhitespace = c.isWhitespace := by
  by_cases h : 65 ≤ c.toNat ∧ c.toNat ≤ 90
  · have h1 : (Char.toLower c).toNat = c.toNat + 32 := by rw [char_toNat_toLower, if_pos h]
    have e1 : ¬ ((Char.toLower c).isWhitespace = true) := by
      intro hc
      have := (char_isWhitespace_iff _).mp hc
      omega
    have e2 : ¬ (c.isWhitespace = true) := by
      intro hc
      have := (char_isWhitespace_iff _).mp hc
      omega
    simp only [Bool.not_eq_true] at e1 e2
    rw [e1, e2]
  · rw [char_toLower_def c, if_neg h]

/-! ### Normalization is idempotent -/

/-- The head of the list, if any, does not satisfy `p`. -/
def HeadFails (p : Char → Bool) (l : Word) : Prop :=
  ∀ a, l.head? = some a → p a = false

lemma headFails_dropWhile (p : Char → Bool) (l : Word) : HeadFails p (l.dropWhile p) := by
  induction l with
  | nil => intro a ha; simp [List.dropWhile] at ha
  | cons b t ih =>
    intro a ha
    rw [List.dropWhile_cons] at ha
    by_cases hb : p b = true
    · rw [if_pos hb] at ha
      exact ih a ha
    · rw [if_neg hb] at ha
      simp only [List.head?_cons, Option.some.injEq] at ha
      subst ha
      simp only [Bool.not_eq_true] at hb
      exact hb

lemma dropWhile_eq_self_of_headFails {p : Char → Bool} {l : Word} (h : HeadFails p l) :
    l.dropWhile p = l := by
  cases l with
  | nil => rfl
  | cons a t =>
    have := h a (by simp)
    simp [List.dropWhile_cons, this]

lemma getLast?_dropWhile (p : Char → Bool) (l : Word) :
    (l.dropWhile p).getLast? = none ∨ (l.dropWhile p).getLast? = l.getLast? := by
  induction l with
  | nil => left; rfl
  | cons a t ih =>
    rw [List.dropWhile_cons]
    by_cases ha : p a = true
    · rw [if_pos ha]
      rcases ih with h | h
      · left; exact h
      · cases t with
        | nil =>
          left
          rfl
        | cons b u =>
          right
          rw [h, List.getLast?_cons_cons]
    · rw [if_neg ha]
      right; rfl

lemma headFails_rtrim {p : Char → Bool} {l : Word} (h : HeadFails p l) :
    HeadFails p ((l.reverse.dropWhile p).reverse) := by
  intro a ha
  rw [List.head?_reverse] at ha
  rcases getLast?_dropWhile p l.reverse with hc | hc
  · rw [hc] at ha; cases ha
  · rw [hc, List.getLast?_reverse] at ha
    exact h a ha

lemma wtrim_headFails (s : Word) : HeadFails Char.isWhitespace (wtrim s) :=
  headFails_rtrim (headFails_dropWhile _ s)

lemma wtrim_idem (s : Word) : wtrim (wtrim s) = wtrim s := by
  have h1 : ((wtrim s).dropWhile Char.isWhitespace) = wtrim s :=
    dropWhile_eq_self_of_headFails (wtrim_headFails s)
  have h2 : (wtrim s).reverse =
      (s.dropWhile Char.isWhitespace).reverse.dropWhile Char.isWhitespace := by
    unfold wtrim
    rw [List.reverse_reverse]
  show (((wtrim s).dropWhile Char.isWhitespace).reverse.dropWhile Char.isWhitespace).reverse =
    wtrim s
  rw [h1, h2, List.dropWhile_idempotent, ← h2, List.reverse_reverse]

lemma dropWhile_map_toLower (p : Char → Bool) (hp : ∀ c, p (Char.toLower c) = p c) (l : Word) :
    (l.map Char.toLower).dropWhile p = (l.dropWhile p).map Char.toLower := by
  induction l with
  | nil => rfl
  | cons a t ih =>
    simp only [List.map_cons, List.dropWhile_cons, hp a]
    by_cases ha : p a = true
    · rw [if_pos ha, if_pos ha, ih]
    · rw [if_neg ha, if_neg ha, List.map_cons]

lemma wtrim_wlower_comm (s : Word) : wtrim (wlower s) = wlower (wtrim s) := by
  unfold wtrim wlower
  rw [dropWhile_map_toLower _ char_isWhitespace_toLower, ← List.map_reverse,
    dropWhile_map_toLower _ char_isWhitespace_toLower, ← List.map_reverse]

lemma wlower_idem (s : Word) : wlower (wlower s) = wlower s := by
  unfold wlower
  rw [List.map_map]
  exact List.map_congr_left (fun c _ => char_toLower_toLower c)

lemma normalize_idem (s : Word) : normalize (normalize s) = normalize s := by
  unfold normalize
  rw [wtrim_wlower_comm, wtrim_idem, wlower_idem]

/-! ### Basic facts about `validate_move` -/

lemma countDifferences_self (w : Word) : countDifferences w w = 0 := by
  induction w with
  | nil => rfl
  | cons a t ih =>
    unfold countDifferences at ih ⊢
    simp only [List.zip_cons_cons, List.countP_cons, ih]
    simp

lemma validate_move_ok_iff (v : RulesValidator) (p c : Word)
    (hused : normalize c ∉ v.used_words) :
    (validate_move v p c).1 = Except.ok () ↔
      (check_one_letter_difference (normalize p) (normalize c)).1 = true := by
  unfold validate_move
  rw [if_neg hused]
  cases h : (check_one_letter_difference (normalize p) (normalize c)).1
  · simp [h]
  · simp [h]

lemma validate_move_already_used (v : RulesValidator) (p c : Word)
    (h : normalize c ∈ v.used_words) :
    (validate_move v p c).1 = Except.error (ValidationError.alreadyUsed (normalize c)) := by
  unfold validate_move
  rw [if_pos h]

lemma check_equal_length (w1 w2 : Word) (hlen : w1.length = w2.length) :
    (check_one_letter_difference w1 w2).1 = true ↔ countDifferences w1 w2 = 1 := by
  unfold check_one_letter_difference
  rw [hlen]
  simp only [sub_self, Int.natAbs_zero, gt_iff_lt, Nat.lt_irrefl, if_false, if_pos rfl]
  by_cases h1 : countDifferences w1 w2 = 1
  · simp [h1]
  · by_cases h0 : countDifferences w1 w2 = 0
    · simp [h0, h1]
    · simp [h0, h1]

/-- C2: for equal normalized lengths with an unused candidate, `validate_move`
succeeds iff exactly one character position differs; and `validate_move(w, w)`
always fails, with no precondition on the used-word set. -/
theorem validate_move_equal_length_spec :
    (∀ (v : RulesValidator) (p c : Word),
        (normalize p).length = (normalize c).length →
        normalize c ∉ v.used_words →
        ((validate_move v p c).1 = Except.ok () ↔
          countDifferences (normalize p) (normalize c) = 1))
    ∧ (∀ (v : RulesValidator) (w : Word), (validate_move v w w).1 ≠ Except.ok ()) := by
  constructor
  · intro v p c hlen hused
    rw [validate_move_ok_iff v p c hused]
    exact check_equal_length _ _ hlen
  · intro v w hok
    by_cases hused : normalize w ∈ v.used_words
    · rw [validate_move_already_used v w w hused] at hok
      cases hok
    · rw [validate_move_ok_iff v w w hused, check_equal_length _ _ rfl,
        countDifferences_self] at hok
      cases hok

/-- Witness for C2 at concrete inputs: "kissa" → "kassa" is a valid
substitution move from the empty used-word set. -/
theorem validate_move_equal_length_spec_witness :
    (validate_move ⟨[]⟩ "kissa".data "kassa".data).1 = Except.ok () :=
  (validate_move_equal_length_spec.1 ⟨[]⟩ "kissa".data "kassa".data (by decide)
    (by decide)).mpr (by decide)

/-- C10: the outcome and the resulting state of `validate_move` depend only on
the normalized (trimmed, lowercased) forms of both arguments. -/
theorem validate_move_normalization_invariant (v : RulesValidator) (p c : Word) :
    validate_move v p c = validate_move v (normalize p) (normalize c) := by
  unfold validate_move
  rw [normalize_idem, normalize_idem]

/-! ### C1: the unequal-length greedy walk decides one-deletion exactly -/

lemma oneGapMatch_nil (l : Word) (found : Bool) : oneGapMatch [] l found = true := by
  cases l <;> rfl

lemma oneGapMatch_cons_cons (a b : Char) (ss ls : Word) (found : Bool) :
    oneGapMatch (a :: ss) (b :: ls) found =
      if a = b then oneGapMatch ss ls found
      else if found then false
      else oneGapMatch (a :: ss) ls true := rfl

/-- With the mismatch flag already set, the walk succeeds on equal-length
inputs exactly when they are equal. -/
lemma oneGapMatch_found_iff (s l : Word) (h : s.length = l.length) :
    oneGapMatch s l true = true ↔ s = l := by
  induction s generalizing l with
  | nil =>
    cases l with
    | nil => simp [oneGapMatch_nil]
    | cons b ls => simp at h
  | cons a ss ih =>
    cases l with
    | nil => simp at h
    | cons b ls =>
      simp only [List.length_cons, Nat.add_right_cancel_iff] at h
      rw [oneGapMatch_cons_cons]
      by_cases hab : a = b
      · subst hab
        rw [if_pos rfl, ih ls h]
        simp
      · rw [if_neg hab, if_pos rfl]
        simp [hab]

/-- The greedy one-gap walk succeeds, on a pair whose lengths differ by one,
exactly when the shorter word is obtained from the longer by deleting one
character: skipping at the first mismatch loses no alignment. -/
lemma oneGapMatch_iff_isDeletionOf (s l : Word) (h : l.length = s.length + 1) :
    oneGapMatch s l false = true ↔ IsDeletionOf s l := by
  induction s generalizing l with
  | nil =>
    cases l with
    | nil => simp at h
    | cons b ls =>
      cases ls with
      | cons c u => simp at h
      | nil =>
        constructor
        · intro _
          exact ⟨0, by simp, rfl⟩
        · intro _
          exact oneGapMatch_nil _ _
  | cons a ss ih =>
    cases l with
    | nil => simp at h
    | cons b ls =>
      have hlen : ls.length = ss.length + 1 := by
        simp only [List.length_cons, Nat.add_right_cancel_iff] at h
        exact h
      rw [oneGapMatch_cons_cons]
      by_cases hab : a = b
      · subst hab
        rw [if_pos rfl, ih ls hlen]
        unfold IsDeletionOf
        constructor
        · rintro ⟨j, hj, hje⟩
          refine ⟨j + 1, by simp only [List.length_cons]; omega, ?_⟩
          rw [List.eraseIdx_cons_succ, hje]
        · rintro ⟨i, hi, hie⟩
          cases i with
          | zero =>
            rw [List.eraseIdx_cons_zero] at hie
            refine ⟨0, by omega, ?_⟩
            rw [hie, List.eraseIdx_cons_zero]
          | succ j =>
            rw [List.eraseIdx_cons_succ] at hie
            have hje : ls.eraseIdx j = ss := (List.cons.injEq _ _ _ _).mp hie |>.2
            refine ⟨j, ?_, hje⟩
            simp only [List.length_cons] at hi
            omega
      · rw [if_neg hab, if_neg (by simp)]
        rw [oneGapMatch_found_iff _ _ (by simp [hlen])]
        unfold IsDeletionOf
        constructor
        · intro he
          exact ⟨0, by simp, by rw [List.eraseIdx_cons_zero]; exact he.symm⟩
        · rintro ⟨i, hi, hie⟩
          cases i with
          | zero =>
            rw [List.eraseIdx_cons_zero] at hie
            exact hie.symm
          | succ j =>
            rw [List.eraseIdx_cons_succ] at hie
            have := (List.cons.injEq _ _ _ _).mp hie |>.1
            exact absurd this.symm hab

lemma check_unequal_length (w1 w2 : Word) (hlen : w1.length = w2.length + 1) :
    (check_one_letter_difference w1 w2).1 = true ↔ IsDeletionOf w2 w1 := by
  unfold check_one_letter_difference
  have h1 : ¬ (((w1.length : Int) - (w2.length : Int)).natAbs > 1) := by
    rw [hlen]
    simp only [Nat.cast_add, Nat.cast_one]
    omega
  rw [if_neg h1, if_neg (by omega), if_neg (by omega)]
  exact oneGapMatch_iff_isDeletionOf w2 w1 hlen

/-- C1: for normalized forms whose character lengths differ by exactly one and
an unused candidate, `validate_move` succeeds iff the shorter normalized word
is obtained from the longer by deleting exactly one character. -/
theorem validate_move_unequal_length_spec (v : RulesValidator) (p c : Word)
    (hlen : (normalize p).length = (normalize c).length + 1 ∨
      (normalize c).length = (normalize p).length + 1)
    (hused : normalize c ∉ v.used_words) :
    (validate_move v p c).1 = Except.ok () ↔
      (if (normalize p).length < (normalize c).length
       then IsDeletionOf (normalize p) (normalize c)
       else IsDeletionOf (normalize c) (normalize p)) := by
  rw [validate_move_ok_iff v p c hused]
  rcases hlen with h | h
  · rw [if_neg (by omega)]
    exact check_unequal_length _ _ h
  · rw [if_pos (by omega)]
    unfold check_one_letter_difference
    have h1 : ¬ (((normalize p).length : Int) - ((normalize c).length : Int)).natAbs > 1 := by
      rw [h]
      simp only [Nat.cast_add, Nat.cast_one]
      omega
    rw [if_neg h1, if_neg (by omega), if_pos (by omega)]
    exact oneGapMatch_iff_isDeletionOf _ _ h

/-- Witness for C1: "kissan" → "kissa" (one deletion) is accepted from the
empty used-word set, and the deletion fact itself is exhibited. -/
theorem validate_move_unequal_length_spec_witness :
    (validate_move ⟨[]⟩ "kissan".data "kissa".data).1 = Except.ok () := by
  have h := validate_move_unequal_length_spec ⟨[]⟩ "kissan".data "kissa".data
    (Or.inl (by decide)) (by decide)
  rw [if_neg (by decide)] at h
  exact h.mpr ⟨5, by decide, by decide⟩

/-! ### C8: once accepted, a word stays rejected until reset -/

/-- Operations on the rules validator available without a game reset. -/
inductive RulesOp where
  | vmove (previous candidate : Word)
  | addw (w : Word)

def applyRulesOp (v : RulesValidator) : RulesOp → RulesValidator
  | .vmove p c => (validate_move v p c).2
  | .addw w => add_word v w

def applyRulesOps (v : RulesValidator) (ops : List RulesOp) : RulesValidator :=
  ops.foldl applyRulesOp v

lemma mem_insertWord_self (w : Word) (s : List Word) : w ∈ insertWord w s := by
  unfold insertWord
  by_cases h : w ∈ s
  · rwa [if_pos h]
  · rw [if_neg h]; exact List.mem_cons_self w s

lemma mem_insertWord_of_mem {x : Word} {s : List Word} (w : Word) (h : x ∈ s) :
    x ∈ insertWord w s := by
  unfold insertWord
  by_cases h2 : w ∈ s
  · rwa [if_pos h2]
  · rw [if_neg h2]; exact List.mem_cons_of_mem w h

lemma used_words_mono (op : RulesOp) {x : Word} {v : RulesValidator}
    (h : x ∈ v.used_words) : x ∈ (applyRulesOp v op).used_words := by
  cases op with
  | vmove p c =>
    show x ∈ (validate_move v p c).2.used_words
    unfold validate_move
    by_cases h1 : normalize c ∈ v.used_words
    · rwa [if_pos h1]
    · rw [if_neg h1]
      by_cases h2 : (check_one_letter_difference (normalize p) (normalize c)).1 = true
      · simp only [h2, if_true]
        exact mem_insertWord_of_mem _ h
      · simp only [Bool.not_eq_true] at h2
        simp only [h2, Bool.false_eq_true, if_false]
        exact h
  | addw w =>
    exact mem_insertWord_of_mem _ h

lemma used_words_mono_ops (ops : List RulesOp) {x : Word} {v : RulesValidator}
    (h : x ∈ v.used_words) : x ∈ (applyRulesOps v ops).used_words := by
  induction ops generalizing v with
  | nil => exact h
  | cons op rest ih => exact ih (used_words_mono op h)

lemma validate_move_ok_inserts {v : RulesValidator} {p c : Word} {v1 : RulesValidator}
    (h : validate_move v p c = (Except.ok (), v1)) :
    normalize c ∈ v1.used_words := by
  unfold validate_move at h
  by_cases h1 : normalize c ∈ v.used_words
  · rw [if_pos h1] at h
    cases h
  · rw [if_neg h1] at h
    by_cases h2 : (check_one_letter_difference (normalize p) (normalize c)).1 = true
    · simp only [h2, if_true] at h
      have := congrArg Prod.snd h
      simp only at this
      rw [← this]
      exact mem_insertWord_self _ _
    · simp only [Bool.not_eq_true] at h2
      simp only [h2, Bool.false_eq_true, if_false] at h
      cases h

lemma add_word_inserts (v : RulesValidator) (w : Word) :
    normalize w ∈ (add_word v w).used_words :=
  mem_insertWord_self _ _

/-- C8: after a word is accepted once — by a successful `validate_move` or by
`add_word` — every later `validate_move` whose candidate has the same
normalized form fails with `AlreadyUsed`, whatever the previous word and
whatever reset-free operations happened in between. -/
theorem validate_move_already_used_forever (v v1 : RulesValidator) (c0 : Word)
    (hacc : (∃ p0, validate_move v p0 c0 = (Except.ok (), v1)) ∨ v1 = add_word v c0)
    (ops : List RulesOp) (p c : Word) (hnorm : normalize c = normalize c0) :
    (validate_move (applyRulesOps v1 ops) p c).1 =
      Except.error (ValidationError.alreadyUsed (normalize c)) := by
  have hmem : normalize c0 ∈ v1.used_words := by
    rcases hacc with ⟨p0, h⟩ | h
    · exact validate_move_ok_inserts h
    · rw [h]; exact add_word_inserts v c0
  apply validate_move_already_used
  rw [hnorm]
  exact used_words_mono_ops ops hmem

/-- Witness for C8: "kassa", accepted from "kissa", is rejected as AlreadyUsed
after a further `add_word "koira"`, with previous word "koira". -/
theorem validate_move_already_used_forever_witness :
    (validate_move (applyRulesOps (validate_move ⟨[]⟩ "kissa".data "kassa".data).2
        [RulesOp.addw "koira".data]) "koira".data "kassa".data).1 =
      Except.error (ValidationError.alreadyUsed (normalize "kassa".data)) :=
  validate_move_already_used_forever ⟨[]⟩ _ "kassa".data
    (Or.inl ⟨"kissa".data, rfl⟩) [RulesOp.addw "koira".data] "koira".data "kassa".data rfl

/-! ### GameState actor (`src/actors/game_state.rs`) -/

/-- `MAX_HISTORY` from `game_state.rs`. -/
def MAX_HISTORY : Nat := 2

/-- A history entry: the word, its submitter, the message id, and the
`is_valid` flag (`false` on registration). -/
structure WordEntry where
  word : Word
  user_id : Nat
  message_id : Nat
  is_valid : Bool
deriving DecidableEq

/-- The state of `GameStateActor`. -/
structure GameStateActor where
  word_history : List WordEntry
  rules_validator : RulesValidator
  last_valid_word : Option Word
  last_game_rule_word : Option Word
deriving DecidableEq

/-- `GameStateActor::new`. -/
def GameStateActor.new : GameStateActor := ⟨[], ⟨[]⟩, none, none⟩

/-- `add_to_history` on the history deque: push back, then pop front once if
over capacity. -/
def pushHist (h : List WordEntry) (entry : WordEntry) : List WordEntry :=
  let h2 := h ++ [entry]
  if h2.length > MAX_HISTORY then h2.tail else h2

/-- `GameStateActor::add_to_history`. -/
def add_to_history (s : GameStateActor) (entry : WordEntry) : GameStateActor :=
  { s with word_history := pushHist s.word_history entry }

/-- `Handler<RegisterWord>`: append a fresh entry with `is_valid = false`. -/
def handleRegisterWord (s : GameStateActor) (word : Word) (user_id message_id : Nat) :
    GameStateActor :=
  add_to_history s ⟨word, user_id, message_id, false⟩

/-- `Handler<ValidateGameRules>`: pick `last_game_rule_word` falling back to
`last_valid_word`; with no reference word accept unconditionally as first
word; otherwise delegate to `validate_move`, and on success update
`last_game_rule_word` and re-add the word to the rules validator. -/
def handleValidateGameRules (s : GameStateActor) (word : Word) : Bool × GameStateActor :=
  match s.last_game_rule_word.or s.last_valid_word with
  | some last_word =>
    let r := validate_move s.rules_validator last_word word
    match r.1 with
    | Except.ok _ =>
      (true, { s with rules_validator := add_word r.2 word,
                      last_game_rule_word := some word })
    | Except.error _ => (false, { s with rules_validator := r.2 })
  | none =>
    (true, { s with last_game_rule_word := some word,
                    rules_validator := add_word s.rules_validator word })

/-- The loop body of `Handler<MarkWordValidity>`: set `is_valid` on the first
entry with the given message id and stop; also report that entry's word. -/
def markInHistory : List WordEntry → Nat → Bool → List WordEntry × Option Word
  | [], _, _ => ([], none)
  | e :: rest, mid, b =>
    if e.message_id = mid then ({ e with is_valid := b } :: rest, some e.word)
    else
      let r := markInHistory rest mid b
      (e :: r.1, r.2)

/-- `Handler<MarkWordValidity>`: update the matching entry; when marking valid
and an entry was found, set `last_valid_word` to that entry's word. -/
def handleMarkWordValidity (s : GameStateActor) (mid : Nat) (b : Bool) : GameStateActor :=
  let r := markInHistory s.word_history mid b
  { s with word_history := r.1,
           last_valid_word :=
             if b then
               match r.2 with
               | some w => some w
               | none => s.last_valid_word
             else s.last_valid_word }

/-- `Handler<ResetGame>`: clear history, used words and both reference words. -/
def handleResetGame (_s : GameStateActor) : GameStateActor := GameStateActor.new

/-- The four request/response operations of the game-state actor. -/
inductive GameOp where
  | register (word : Word) (user_id message_id : Nat)
  | validateRules (word : Word)
  | markValidity (message_id : Nat) (is_valid : Bool)
  | reset

/-- One mailbox message processed by the actor. -/
def stepOp (s : GameStateActor) : GameOp → GameStateActor
  | .register w u m => handleRegisterWord s w u m
  | .validateRules w => (handleValidateGameRules s w).2
  | .markValidity m b => handleMarkWordValidity s m b
  | .reset => handleResetGame s

/-- A sequence of mailbox messages, processed one at a time. -/
def runOps (s : GameStateActor) (ops : List GameOp) : GameStateActor :=
  ops.foldl stepOp s

/-! ### C9: the history is bounded by 2 and evicts the oldest entry -/

lemma markInHistory_length (h : List WordEntry) (mid : Nat) (b : Bool) :
    (markInHistory h mid b).1.length = h.length := by
  induction h with
  | nil => rfl
  | cons e rest ih =>
    unfold markInHistory
    by_cases he : e.message_id = mid
    · rw [if_pos he]
      simp
    · rw [if_neg he]
      simp [ih]

lemma handleValidateGameRules_history (s : GameStateActor) (w : Word) :
    ((handleValidateGameRules s w).2).word_history = s.word_history := by
  rcases h : s.last_game_rule_word.or s.last_valid_word with _ | last
  · simp [handleValidateGameRules, h]
  · rcases h2 : (validate_move s.rules_validator last w).1 with _ | e <;>
      simp [handleValidateGameRules, h, h2]

lemma pushHist_length_le (h : List WordEntry) (e : WordEntry)
    (hle : h.length ≤ MAX_HISTORY) : (pushHist h e).length ≤ MAX_HISTORY := by
  unfold pushHist
  by_cases hl : (h ++ [e]).length > MAX_HISTORY
  · rw [if_pos hl]
    simp only [List.length_tail, List.length_append, List.length_singleton] at *
    omega
  · rw [if_neg hl]
    omega

lemma stepOp_history_le {s : GameStateActor} (op : GameOp)
    (h : s.word_history.length ≤ MAX_HISTORY) :
    (stepOp s op).word_history.length ≤ MAX_HISTORY := by
  cases op with
  | register w u m => exact pushHist_length_le _ _ h
  | validateRules w => rw [stepOp, handleValidateGameRules_history]; exact h
  | markValidity m b =>
    show (handleMarkWordValidity s m b).word_history.length ≤ MAX_HISTORY
    unfold handleMarkWordValidity
    simp only
    rw [markInHistory_length]
    exact h
  | reset => show (0 : Nat) ≤ MAX_HISTORY; omega

lemma runOps_history_le {s : GameStateActor} (ops : List GameOp)
    (h : s.word_history.length ≤ MAX_HISTORY) :
    (runOps s ops).word_history.length ≤ MAX_HISTORY := by
  induction ops generalizing s with
  | nil => exact h
  | cons op rest ih => exact ih (stepOp_history_le op h)

lemma pushHist_pushHist (h : List WordEntry) (hle : h.length ≤ 2) (e2 e3 : WordEntry) :
    pushHist (pushHist h e2) e3 = [e2, e3] := by
  match h, hle with
  | [], _ => rfl
  | [a], _ => rfl
  | [a, b], _ => rfl

/-- C9: starting from the initial state, the history never exceeds
`MAX_HISTORY = 2` entries, and after three sequential registrations exactly
the latest two registered entries remain (the oldest is evicted). -/
theorem history_bounded_and_evicts_oldest :
    (∀ ops : List GameOp,
      (runOps GameStateActor.new ops).word_history.length ≤ MAX_HISTORY)
    ∧ (∀ (ops : List GameOp) (w1 w2 w3 : Word) (u1 u2 u3 m1 m2 m3 : Nat),
      (runOps GameStateActor.new (ops ++ [GameOp.register w1 u1 m1,
          GameOp.register w2 u2 m2, GameOp.register w3 u3 m3])).word_history
        = [⟨w2, u2, m2, false⟩, ⟨w3, u3, m3, false⟩]) := by
  constructor
  · intro ops
    exact runOps_history_le ops (by simp [GameStateActor.new, MAX_HISTORY])
  · intro ops w1 w2 w3 u1 u2 u3 m1 m2 m3
    unfold runOps
    rw [List.foldl_append]
    have h0 : (List.foldl stepOp GameStateActor.new ops).word_history.length ≤ MAX_HISTORY :=
      runOps_history_le ops (by simp [GameStateActor.new, MAX_HISTORY])
    set s := List.foldl stepOp GameStateActor.new ops with hs
    show (stepOp (stepOp (stepOp s (GameOp.register w1 u1 m1)) (GameOp.register w2 u2 m2))
        (GameOp.register w3 u3 m3)).word_history = _
    have h1 : (stepOp s (GameOp.register w1 u1 m1)).word_history.length ≤ MAX_HISTORY :=
      stepOp_history_le _ h0
    show (pushHist (pushHist (stepOp s (GameOp.register w1 u1 m1)).word_history
        ⟨w2, u2, m2, false⟩) ⟨w3, u3, m3, false⟩) = _
    exact pushHist_pushHist _ h1 _ _

/-! ### C5: validity transitions of a history entry -/

/-- The `is_valid` flag of the first history entry with the given message id,
as `MarkWordValidity` would locate it. -/
def entryValidity (mid : Nat) (s : GameStateActor) : Option Bool :=
  (s.word_history.find? (fun e => e.message_id == mid)).map WordEntry.is_valid

/-- All history entries carrying the given message id. -/
def entriesFor (mid : Nat) (s : GameStateActor) : List WordEntry :=
  s.word_history.filter (fun e => e.message_id == mid)

lemma entryValidity_eq_head (mid : Nat) (s : GameStateActor) :
    entryValidity mid s = ((entriesFor mid s).head?).map WordEntry.is_valid := by
  unfold entryValidity entriesFor
  rw [List.filter_head?]

/-- Does the operation mark validity for this message id? -/
def isMarkFor (m : Nat) : GameOp → Bool
  | .markValidity m2 _ => m2 == m
  | _ => false

/-- Does the operation mark this message id as valid? -/
def isMarkTrueFor (m : Nat) : GameOp → Bool
  | .markValidity m2 b => m2 == m && b
  | _ => false

/-- Does the operation register an entry with this message id? -/
def isRegisterFor (m : Nat) : GameOp → Bool
  | .register _ _ m2 => m2 == m
  | _ => false

lemma markInHistory_mem {h : List WordEntry} {mid : Nat} {b : Bool} {x : WordEntry}
    (hx : x ∈ (markInHistory h mid b).1) :
    x ∈ h ∨ ∃ e ∈ h, e.message_id = mid ∧ x = { e with is_valid := b } := by
  induction h with
  | nil => cases hx
  | cons e rest ih =>
    unfold markInHistory at hx
    by_cases he : e.message_id = mid
    · rw [if_pos he] at hx
      rcases List.mem_cons.mp hx with h1 | h1
      · right; exact ⟨e, List.mem_cons_self _ _, he, h1⟩
      · left; exact List.mem_cons_of_mem e h1
    · rw [if_neg he] at hx
      rcases List.mem_cons.mp hx with h1 | h1
      · left; rw [h1]; exact List.mem_cons_self _ _
      · rcases ih h1 with h2 | ⟨e2, he2, hm2, hx2⟩
        · left; exact List.mem_cons_of_mem e h2
        · right; exact ⟨e2, List.mem_cons_of_mem e he2, hm2, hx2⟩

lemma markInHistory_filter_ne {h : List WordEntry} {mid : Nat} {b : Bool} {m : Nat}
    (hne : mid ≠ m) :
    (markInHistory h mid b).1.filter (fun e => e.message_id == m)
      = h.filter (fun e => e.message_id == m) := by
  induction h with
  | nil => rfl
  | cons e rest ih =>
    unfold markInHistory
    by_cases he : e.message_id = mid
    · rw [if_pos he]
      have hfe : (e.message_id == m) = false := by
        rw [he]
        exact beq_eq_false_iff_ne.mpr hne
      show List.filter _ ({ e with is_valid := b } :: rest) = _
      rw [List.filter_cons, List.filter_cons]
      show (if (e.message_id == m) = true then _ else _) = _
      rw [hfe]
      simp
    · rw [if_neg he]
      show List.filter _ (e :: (markInHistory rest mid b).1) = _
      rw [List.filter_cons, List.filter_cons, ih]

lemma entriesFor_stepOp_sublist {m : Nat} (s : GameStateActor) (op : GameOp)
    (hreg : isRegisterFor m op = false) (hmark : isMarkFor m op = false) :
    List.Sublist (entriesFor m (stepOp s op)) (entriesFor m s) := by
  cases op with
  | register w u m2 =>
    have hne : (m2 == m) = false := hreg
    unfold entriesFor stepOp handleRegisterWord add_to_history pushHist
    simp only
    have hbase : (s.word_history ++ [(⟨w, u, m2, false⟩ : WordEntry)]).filter
        (fun e => e.message_id == m) = s.word_history.filter (fun e => e.message_id == m) := by
      rw [List.filter_append]
      simp [List.filter_cons, hne]
    by_cases hl : (s.word_history ++ [(⟨w, u, m2, false⟩ : WordEntry)]).length > MAX_HISTORY
    · rw [if_pos hl]
      have h1 : List.Sublist
          ((s.word_history ++ [(⟨w, u, m2, false⟩ : WordEntry)]).tail.filter (fun e => e.message_id == m))
          ((s.word_history ++ [(⟨w, u, m2, false⟩ : WordEntry)]).filter (fun e => e.message_id == m)) :=
        List.Sublist.filter _ (List.tail_sublist _)
      rw [hbase] at h1
      exact h1
    · rw [if_neg hl, hbase]
  | validateRules w =>
    unfold entriesFor
    rw [show (stepOp s (GameOp.validateRules w)).word_history = s.word_history from
      handleValidateGameRules_history s w]
  | markValidity m2 b =>
    have hne : (m2 == m) = false := hmark
    unfold entriesFor stepOp handleMarkWordValidity
    simp only
    rw [markInHistory_filter_ne (by simpa using hne)]
  | reset =>
    exact List.nil_sublist _

/-- The single-entry-and-valid (or absent) invariant used for the amended C5. -/
def UniqueValid (m : Nat) (s : GameStateActor) : Prop :=
  entriesFor m s = [] ∨ ∃ e : WordEntry, entriesFor m s = [e] ∧ e.is_valid = true

lemma uniqueValid_stepOp {m : Nat} {s : GameStateActor} {op : GameOp}
    (hreg : isRegisterFor m op = false) (hmark : isMarkFor m op = false)
    (h : UniqueValid m s) : UniqueValid m (stepOp s op) := by
  have hsub := entriesFor_stepOp_sublist s op hreg hmark
  rcases h with h | ⟨e, he, hev⟩
  · left
    rw [h] at hsub
    exact List.sublist_nil.mp hsub
  · rw [he] at hsub
    rcases List.sublist_singleton.mp hsub with h2 | h2
    · left; exact h2
    · right; exact ⟨e, h2, hev⟩

lemma uniqueValid_runOps {m : Nat} {s : GameStateActor} {ops : List GameOp}
    (hreg : ops.countP (isRegisterFor m) = 0) (hmark : ops.countP (isMarkFor m) = 0)
    (h : UniqueValid m s) : UniqueValid m (runOps s ops) := by
  induction ops generalizing s with
  | nil => exact h
  | cons op rest ih =>
    rw [List.countP_cons] at hreg hmark
    have hreg1 : isRegisterFor m op = false := by
      by_cases hc : isRegisterFor m op = true
      · simp [hc] at hreg
      · simpa using hc
    have hmark1 : isMarkFor m op = false := by
      by_cases hc : isMarkFor m op = true
      · simp [hc] at hmark
      · simpa using hc
    exact ih (by omega) (by omega) (uniqueValid_stepOp hreg1 hmark1 h)

/-- Without a mark-true for `m`, every history entry for `m` still has
`is_valid = false` (the registration default). -/
def AllFalseFor (m : Nat) (s : GameStateActor) : Prop :=
  ∀ e ∈ s.word_history, e.message_id = m → e.is_valid = false

/-- No history entry carries message id `m`. -/
def NoEntryFor (m : Nat) (s : GameStateActor) : Prop :=
  ∀ e ∈ s.word_history, e.message_id ≠ m

lemma mem_pushHist {h : List WordEntry} {entry x : WordEntry}
    (hx : x ∈ pushHist h entry) : x ∈ h ∨ x = entry := by
  unfold pushHist at hx
  have hx2 : x ∈ h ++ [entry] := by
    by_cases hl : (h ++ [entry]).length > MAX_HISTORY
    · rw [if_pos hl] at hx
      exact (List.tail_sublist _).subset hx
    · rwa [if_neg hl] at hx
  rcases List.mem_append.mp hx2 with h1 | h1
  · left; exact h1
  · right; simpa using h1

lemma allFalseFor_stepOp {m : Nat} {s : GameStateActor} {op : GameOp}
    (hop : isMarkTrueFor m op = false) (h : AllFalseFor m s) :
    AllFalseFor m (stepOp s op) := by
  cases op with
  | register w u m2 =>
    intro e he hm
    rcases mem_pushHist he with h1 | h1
    · exact h e h1 hm
    · rw [h1]
  | validateRules w =>
    intro e he hm
    rw [show (stepOp s (GameOp.validateRules w)).word_history = s.word_history from
      handleValidateGameRules_history s w] at he
    exact h e he hm
  | markValidity m2 b =>
    intro e he hm
    rcases markInHistory_mem he with h1 | ⟨e2, he2, hm2, hx2⟩
    · exact h e h1 hm
    · have hmb : ¬ (m2 = m ∧ b = true) := by
        intro ⟨hc1, hc2⟩
        rw [show isMarkTrueFor m (GameOp.markValidity m2 b) = ((m2 == m) && b) from rfl,
          hc2] at hop
        simp [hc1] at hop
      rw [hx2]
      show b = false
      rw [hx2] at hm
      have : e2.message_id = m := hm
      rcases Bool.eq_false_or_eq_true b with hb | hb
      · exact absurd ⟨by rw [← hm2, this], hb⟩ hmb
      · exact hb
  | reset =>
    intro e he
    cases he

lemma noEntryFor_stepOp {m : Nat} {s : GameStateActor} {op : GameOp}
    (hop : isRegisterFor m op = false) (h : NoEntryFor m s) :
    NoEntryFor m (stepOp s op) := by
  cases op with
  | register w u m2 =>
    intro e he
    rcases mem_pushHist he with h1 | h1
    · exact h e h1
    · rw [h1]
      intro hc
      have hcm : m2 = m := hc
      rw [show isRegisterFor m (GameOp.register w u m2) = (m2 == m) from rfl] at hop
      simp [hcm] at hop
  | validateRules w =>
    intro e he
    rw [show (stepOp s (GameOp.validateRules w)).word_history = s.word_history from
      handleValidateGameRules_history s w] at he
    exact h e he
  | markValidity m2 b =>
    intro e he
    rcases markInHistory_mem he with h1 | ⟨e2, he2, hm2, hx2⟩
    · exact h e h1
    · rw [hx2]
      exact h e2 he2
  | reset =>
    intro e he
    cases he

lemma allFalseFor_runOps {m : Nat} {s : GameStateActor} {ops : List GameOp}
    (hops : ops.countP (isMarkTrueFor m) = 0) (h : AllFalseFor m s) :
    AllFalseFor m (runOps s ops) := by
  induction ops generalizing s with
  | nil => exact h
  | cons op rest ih =>
    rw [List.countP_cons] at hops
    have h1 : isMarkTrueFor m op = false := by
      by_cases hc : isMarkTrueFor m op = true
      · simp [hc] at hops
      · simpa using hc
    exact ih (by omega) (allFalseFor_stepOp h1 h)

lemma noEntryFor_runOps {m : Nat} {s : GameStateActor} {ops : List GameOp}
    (hops : ops.countP (isRegisterFor m) = 0) (h : NoEntryFor m s) :
    NoEntryFor m (runOps s ops) := by
  induction ops generalizing s with
  | nil => exact h
  | cons op rest ih =>
    rw [List.countP_cons] at hops
    have h1 : isRegisterFor m op = false := by
      by_cases hc : isRegisterFor m op = true
      · simp [hc] at hops
      · simpa using hc
    exact ih (by omega) (noEntryFor_stepOp h1 h)

lemma entryValidity_ne_true_of_allFalse {m : Nat} {s : GameStateActor}
    (h : AllFalseFor m s) : entryValidity m s ≠ some true := by
  unfold entryValidity
  cases hf : s.word_history.find? (fun e => e.message_id == m) with
  | none => simp
  | some e =>
    have hmem := List.mem_of_find?_eq_some hf
    have hpe := List.find?_some hf
    have hem : e.message_id = m := by simpa using hpe
    have := h e hmem hem
    simp [this]

lemma entryValidity_eq_none_of_noEntry {m : Nat} {s : GameStateActor}
    (h : NoEntryFor m s) : entryValidity m s = none := by
  unfold entryValidity
  rw [List.find?_eq_none.mpr (fun e he => by simpa using h e he)]
  rfl

lemma markInHistory_countP (h : List WordEntry) (mid : Nat) (b : Bool) (m : Nat) :
    (markInHistory h mid b).1.countP (fun e => e.message_id == m)
      = h.countP (fun e => e.message_id == m) := by
  induction h with
  | nil => rfl
  | cons e rest ih =>
    unfold markInHistory
    by_cases he : e.message_id = mid
    · rw [if_pos he]
      show List.countP _ ({ e with is_valid := b } :: rest) = _
      rw [List.countP_cons, List.countP_cons]
    · rw [if_neg he]
      show List.countP _ (e :: (markInHistory rest mid b).1) = _
      rw [List.countP_cons, List.countP_cons, ih]

lemma entriesFor_length_stepOp {m : Nat} (s : GameStateActor) (op : GameOp) :
    (entriesFor m (stepOp s op)).length
      ≤ (entriesFor m s).length + (if isRegisterFor m op then 1 else 0) := by
  cases op with
  | register w u m2 =>
    have hsub : List.Sublist (entriesFor m (stepOp s (GameOp.register w u m2)))
        ((s.word_history ++ [(⟨w, u, m2, false⟩ : WordEntry)]).filter
          (fun e => e.message_id == m)) := by
      show List.Sublist ((pushHist s.word_history ⟨w, u, m2, false⟩).filter
        (fun e => e.message_id == m)) _
      unfold pushHist
      by_cases hl : (s.word_history ++ [(⟨w, u, m2, false⟩ : WordEntry)]).length > MAX_HISTORY
      · rw [if_pos hl]
        exact List.Sublist.filter _ (List.tail_sublist _)
      · rw [if_neg hl]
    have hlen := hsub.length_le
    rw [List.filter_append] at hlen
    refine le_trans hlen ?_
    rw [List.length_append]
    unfold entriesFor
    rw [show isRegisterFor m (GameOp.register w u m2) = (m2 == m) from rfl]
    by_cases hm : (m2 == m) = true
    · rw [hm]
      simp [List.filter_cons, hm]
    · simp only [Bool.not_eq_true] at hm
      rw [hm]
      simp [List.filter_cons, hm]
  | validateRules w =>
    unfold entriesFor
    rw [show (stepOp s (GameOp.validateRules w)).word_history = s.word_history from
      handleValidateGameRules_history s w]
    simp
  | markValidity m2 b =>
    unfold entriesFor stepOp handleMarkWordValidity
    simp only
    rw [← List.countP_eq_length_filter, ← List.countP_eq_length_filter,
      markInHistory_countP]
    simp
  | reset =>
    show (List.length []) ≤ _
    simp

lemma entriesFor_length_runOps {m : Nat} {s : GameStateActor} (ops : List GameOp) :
    (entriesFor m (runOps s ops)).length
      ≤ (entriesFor m s).length + ops.countP (isRegisterFor m) := by
  induction ops generalizing s with
  | nil => simp [runOps]
  | cons op rest ih =>
    rw [List.countP_cons]
    have h1 := entriesFor_length_stepOp (m := m) s op
    have h2 := ih (s := stepOp s op)
    show (entriesFor m (runOps (stepOp s op) rest)).length ≤ _
    by_cases hr : isRegisterFor m op = true
    · rw [if_pos hr] at h1
      simp only [hr, if_true]
      omega
    · simp only [Bool.not_eq_true] at hr
      rw [hr] at h1 ⊢
      simp at h1 ⊢
      omega

lemma allFalseFor_new (m : Nat) : AllFalseFor m GameStateActor.new := by
  intro e he
  cases he

lemma noEntryFor_new (m : Nat) : NoEntryFor m GameStateActor.new := by
  intro e he
  cases he

lemma isMarkTrueFor_imp_isMarkFor (m : Nat) (op : GameOp)
    (h : isMarkTrueFor m op = true) : isMarkFor m op = true := by
  cases op with
  | markValidity m2 b =>
    rw [show isMarkTrueFor m (GameOp.markValidity m2 b) = ((m2 == m) && b) from rfl] at h
    rw [show isMarkFor m (GameOp.markValidity m2 b) = (m2 == m) from rfl]
    exact (Bool.and_eq_true _ _ |>.mp h).1
  | register w u m2 => cases h
  | validateRules w => cases h
  | reset => cases h

/-- C5 counterexample: with two `MarkWordValidity` messages for the same
message id — a sequence the actor accepts — the entry's validity flag goes
`true` and then back to `false`: a `Valid → Invalid` reversal, so the flag is
not mutated at most once. -/
theorem word_validity_reversal_reachable :
    entryValidity 1 (runOps GameStateActor.new
      [GameOp.register [] 7 1, GameOp.markValidity 1 true]) = some true
    ∧ entryValidity 1 (runOps GameStateActor.new
      [GameOp.register [] 7 1, GameOp.markValidity 1 true,
        GameOp.markValidity 1 false]) = some false := by
  constructor
  · rfl
  · rfl

/-- C5 (amended): a history entry's validity flag starts `false` on
registration and is only ever written by `MarkWordValidity`; provided each
message id is registered at most once and marked at most once across the run
— the discipline the pipeline follows — an entry once marked valid is never
later observed invalid. -/
theorem word_validity_mark_once_monotone (ops1 ops2 : List GameOp) (m : Nat)
    (hmarks : (ops1 ++ ops2).countP (isMarkFor m) ≤ 1)
    (hregs : (ops1 ++ ops2).countP (isRegisterFor m) ≤ 1)
    (hvalid : entryValidity m (runOps GameStateActor.new ops1) = some true) :
    entryValidity m (runOps GameStateActor.new (ops1 ++ ops2)) ≠ some false := by
  rw [List.countP_append] at hmarks hregs
  have h1 : ops1.countP (isMarkTrueFor m) ≠ 0 := by
    intro hc
    exact entryValidity_ne_true_of_allFalse
      (allFalseFor_runOps hc (allFalseFor_new m)) hvalid
  have hmono : ops1.countP (isMarkTrueFor m) ≤ ops1.countP (isMarkFor m) :=
    List.countP_mono_left (fun op _ => isMarkTrueFor_imp_isMarkFor m op)
  have hm2 : ops2.countP (isMarkFor m) = 0 := by omega
  have h3 : ops1.countP (isRegisterFor m) ≠ 0 := by
    intro hc
    have := entryValidity_eq_none_of_noEntry
      (noEntryFor_runOps hc (noEntryFor_new m))
    rw [this] at hvalid
    cases hvalid
  have hr2 : ops2.countP (isRegisterFor m) = 0 := by omega
  have hUV : UniqueValid m (runOps GameStateActor.new ops1) := by
    have hlen : (entriesFor m (runOps GameStateActor.new ops1)).length ≤ 1 := by
      have hb := entriesFor_length_runOps (m := m) (s := GameStateActor.new) ops1
      have hz : (entriesFor m GameStateActor.new).length = 0 := rfl
      omega
    rw [entryValidity_eq_head] at hvalid
    cases he : (entriesFor m (runOps GameStateActor.new ops1)).head? with
    | none => rw [he] at hvalid; cases hvalid
    | some e =>
      rw [he] at hvalid
      simp only [Option.map_some'] at hvalid
      have hev : e.is_valid = true := by simpa using hvalid
      right
      refine ⟨e, ?_, hev⟩
      cases hl : entriesFor m (runOps GameStateActor.new ops1) with
      | nil => rw [hl] at he; cases he
      | cons a t =>
        rw [hl] at he hlen
        simp only [List.head?_cons, Option.some.injEq] at he
        have ht : t = [] := by
          simp only [List.length_cons] at hlen
          exact List.length_eq_zero.mp (by omega)
        rw [ht, he]
  have hUV2 := uniqueValid_runOps hr2 hm2 hUV
  have hsplit2 : runOps GameStateActor.new (ops1 ++ ops2)
      = runOps (runOps GameStateActor.new ops1) ops2 := by
    unfold runOps
    rw [List.foldl_append]
  rw [hsplit2, entryValidity_eq_head]
  rcases hUV2 with h | ⟨e, he, hev⟩
  · rw [h]
    simp
  · rw [he]
    simp [hev]

/-- Witness for the amended C5 at a concrete single-mark run. -/
theorem word_validity_mark_once_monotone_witness :
    entryValidity 1 (runOps GameStateActor.new
      ([GameOp.register [] 7 1, GameOp.markValidity 1 true]
        ++ [GameOp.register [] 8 2])) ≠ some false :=
  word_validity_mark_once_monotone
    [GameOp.register [] 7 1, GameOp.markValidity 1 true]
    [GameOp.register [] 8 2] 1 (by decide) (by decide) (by decide)

/-! ### LLM batch validator (`src/validation/llm.rs`, `src/actors/llm_validator.rs`) -/

def EMOJI_CHECK : Char := '✅'
def EMOJI_CROSS : Char := '❌'
def EMOJI_QUESTION : Char := '❓'

/-- One object of the external service's JSON response. -/
structure ProperNounResponse where
  word : Word
  is_proper_noun : Bool
  explanation : String
deriving DecidableEq

/-- `HashMap` lookup on an insertion sequence: the last insert for a key
wins, as repeated `HashMap::insert` overwrites. -/
def mlookup {α : Type} : List (Word × α) → Word → Option α
  | [], _ => none
  | (k, v) :: rest, key =>
    match mlookup rest key with
    | some r => some r
    | none => if k = key then some v else none

/-- `HashMap::insert`, modelled as appending to the insertion sequence. -/
def minsert {α : Type} (k : Word) (v : α) (m : List (Word × α)) : List (Word × α) :=
  m ++ [(k, v)]

/-- The cache partition pass at the start of `validate_json_batch`: a word
whose normalized form has a cached verdict goes into the result map, the
rest into `words_to_check`. -/
def partitionCache (cache : List (Word × ProperNounResponse)) (words : List Word) :
    List (Word × ProperNounResponse) × List Word :=
  words.foldl
    (fun acc w =>
      match mlookup cache (normalize w) with
      | some r => (minsert w r acc.1, acc.2)
      | none => (acc.1, acc.2 ++ [w]))
    ([], [])

/-- `LLMValidator::validate_json_batch`.  The external call together with
response parsing is abstracted by the parameter `svc`; `Except.error ()` is a
transport or parse failure of the call for the uncached remainder.  Returns
the request list sent to the external service (`none` when no call is made)
together with the Rust result: the per-word response map and the updated
cache (the cache is only written on a successful call). -/
def validate_json_batch (cache : List (Word × ProperNounResponse)) (words : List Word)
    (svc : Except Unit (List ProperNounResponse)) :
    Option (List Word) ×
      Except Unit (List (Word × ProperNounResponse) × List (Word × ProperNounResponse)) :=
  if words = [] then (none, Except.ok ([], cache))
  else
    let p := partitionCache cache words
    if p.2 = [] then (none, Except.ok (p.1, cache))
    else
      match svc with
      | Except.error _ => (some p.2, Except.error ())
      | Except.ok objs =>
        let validation_results : List (Word × Bool) :=
          objs.map (fun r => (r.word, r.is_proper_noun))
        let newCache := validation_results.foldl
          (fun c wb => minsert (normalize wb.1) ⟨wb.1, wb.2, ""⟩ c) cache
        let results := validation_results.foldl
          (fun r wb => minsert wb.1 ⟨wb.1, wb.2, ""⟩ r) p.1
        (some p.2, Except.ok (results, newCache))

/-- A queued word awaiting external confirmation (the actor-address callback
handles carry no data relevant to the verdict). -/
structure QueueEntry where
  word : Word
  message_id : Nat
deriving DecidableEq

/-- The fire-and-forget messages a flush sends to GameState
(`MarkWordValidity`) and to the reaction sink (`AddReaction` /
`DeleteReaction`). -/
inductive OutMsg where
  | deleteReaction (message_id : Nat) (reaction : Char)
  | markWordValidity (message_id : Nat) (is_valid : Bool)
  | addReaction (message_id : Nat) (reaction : Char)
deriving DecidableEq

/-- The per-entry result dispatch of `Handler<TriggerBatchValidation>`:
a found verdict first clears the question mark, then either marks valid and
adds a checkmark, or only adds a cross; a missing verdict adds a cross. -/
def processEntry (results : List (Word × ProperNounResponse)) (e : QueueEntry) :
    List OutMsg :=
  match mlookup results e.word with
  | some response =>
    if response.is_proper_noun then
      [OutMsg.deleteReaction e.message_id EMOJI_QUESTION,
       OutMsg.markWordValidity e.message_id true,
       OutMsg.addReaction e.message_id EMOJI_CHECK]
    else
      [OutMsg.deleteReaction e.message_id EMOJI_QUESTION,
       OutMsg.addReaction e.message_id EMOJI_CROSS]
  | none => [OutMsg.addReaction e.message_id EMOJI_CROSS]

/-- Process every dequeued entry of a batch against the result map. -/
def processBatch (results : List (Word × ProperNounResponse))
    (entries : List QueueEntry) : List OutMsg :=
  (entries.map (processEntry results)).flatten

/-- A whole flush: run `validate_json_batch` on the entries' words; on error
the actor substitutes an empty result map; then process every entry.
Returns the emitted messages and the cache left for the next flush. -/
def flushBatch (cache : List (Word × ProperNounResponse)) (entries : List QueueEntry)
    (svc : Except Unit (List ProperNounResponse)) :
    List OutMsg × List (Word × ProperNounResponse) :=
  match (validate_json_batch cache (entries.map QueueEntry.word) svc).2 with
  | Except.ok rc => (processBatch rc.1 entries, rc.2)
  | Except.error _ => (processBatch [] entries, cache)

/-! ### C7: cached words are never re-sent to the external service -/

lemma partitionCache_snd (cache : List (Word × ProperNounResponse)) (words : List Word) :
    (partitionCache cache words).2
      = words.filter (fun w => (mlookup cache (normalize w)).isNone) := by
  suffices h : ∀ acc : List (Word × ProperNounResponse) × List Word,
      (words.foldl
        (fun acc w =>
          match mlookup cache (normalize w) with
          | some r => (minsert w r acc.1, acc.2)
          | none => (acc.1, acc.2 ++ [w])) acc).2
      = acc.2 ++ words.filter (fun w => (mlookup cache (normalize w)).isNone) by
    have := h ([], [])
    simpa [partitionCache] using this
  induction words with
  | nil => intro acc; simp
  | cons w rest ih =>
    intro acc
    rw [List.foldl_cons, List.filter_cons]
    cases hw : mlookup cache (normalize w) with
    | some r =>
      simp only [hw, Option.isNone_some, Bool.false_eq_true, if_false]
      exact ih _
    | none =>
      simp only [hw, Option.isNone_none, if_true]
      rw [ih _]
      simp

/-- C7: the request list sent by a flush to the external service is exactly
the batch's words whose normalized forms miss the result cache; a cached word
is never part of it, and when every word hits the cache (or the batch is
empty) no external call is made at all. -/
theorem batch_request_exactly_cache_misses (cache : List (Word × ProperNounResponse))
    (words : List Word) (svc : Except Unit (List ProperNounResponse)) :
    (∀ l, (validate_json_batch cache words svc).1 = some l →
        l = words.filter (fun w => (mlookup cache (normalize w)).isNone)
        ∧ ∀ w ∈ l, mlookup cache (normalize w) = none)
    ∧ ((∀ w ∈ words, mlookup cache (normalize w) ≠ none) →
        (validate_json_batch cache words svc).1 = none)
    ∧ (words.filter (fun w => (mlookup cache (normalize w)).isNone) ≠ [] →
        (validate_json_batch cache words svc).1
          = some (words.filter (fun w => (mlookup cache (normalize w)).isNone))) := by
  have hsnd := partitionCache_snd cache words
  have hmem : ∀ w ∈ (partitionCache cache words).2, mlookup cache (normalize w) = none := by
    intro w hw
    rw [hsnd] at hw
    have := List.of_mem_filter hw
    exact Option.isNone_iff_eq_none.mp this
  by_cases hempty : words = []
  · subst hempty
    refine ⟨?_, ?_, ?_⟩
    · intro l hl
      cases hl
    · intro _
      rfl
    · intro hc
      cases hc rfl
  · by_cases hp : (partitionCache cache words).2 = []
    · have hreq : (validate_json_batch cache words svc).1 = none := by
        unfold validate_json_batch
        rw [if_neg hempty]
        simp [hp]
      refine ⟨?_, fun _ => hreq, ?_⟩
      · intro l hl
        rw [hreq] at hl
        cases hl
      · intro hc
        rw [← hsnd] at hc
        cases hc hp
    · have hreq : (validate_json_batch cache words svc).1
          = some (partitionCache cache words).2 := by
        unfold validate_json_batch
        rw [if_neg hempty]
        simp only [hp, if_neg hp]
        cases svc with
        | error e => rfl
        | ok objs => rfl
      refine ⟨?_, ?_, ?_⟩
      · intro l hl
        rw [hreq] at hl
        cases hl
        exact ⟨hsnd, hmem⟩
      · intro hall
        exfalso
        rcases List.exists_mem_of_ne_nil _ hp with ⟨w, hw⟩
        exact hall w (by
          rw [hsnd] at hw
          exact List.mem_of_mem_filter hw) (hmem w hw)
      · intro _
        rw [hreq, hsnd]

/-- Witness for C7: a fully cached batch issues no external request. -/
theorem batch_request_exactly_cache_misses_witness :
    (validate_json_batch [(normalize "Bob".data, (⟨"Bob".data, true, ""⟩ : ProperNounResponse))]
      ["Bob".data] (Except.error ())).1 = none :=
  (batch_request_exactly_cache_misses [(normalize "Bob".data, (⟨"Bob".data, true, ""⟩ : ProperNounResponse))]
    ["Bob".data] (Except.error ())).2.1 (by decide)

/-! ### C3: a failed external call leaves the whole batch unresolved -/

lemma validate_json_batch_error_of_called (cache : List (Word × ProperNounResponse))
    (words : List Word)
    (hcall : (validate_json_batch cache words (Except.error ())).1 ≠ none) :
    (validate_json_batch cache words (Except.error ())).2 = Except.error () := by
  unfold validate_json_batch at hcall ⊢
  by_cases hempty : words = []
  · rw [if_pos hempty] at hcall
    cases hcall rfl
  · rw [if_neg hempty] at hcall ⊢
    by_cases hp : (partitionCache cache words).2 = []
    · simp [hp] at hcall
    · simp [hp]

lemma processEntry_empty (e : QueueEntry) :
    processEntry [] e = [OutMsg.addReaction e.message_id EMOJI_CROSS] := rfl

/-- C3 counterexample: the batch holds "Paris", whose confirmed verdict is in
the result cache, and the uncached "Bob"; the external call fails.  The flush
then emits only failure crosses — the cached word is *not* resolved from the
cache: it gets no success indication and no `MarkWordValidity`. -/
theorem external_failure_drops_cached_results :
    mlookup [(normalize "Paris".data, (⟨"Paris".data, true, ""⟩ : ProperNounResponse))]
        (normalize "Paris".data) = some (⟨"Paris".data, true, ""⟩ : ProperNounResponse)
    ∧ (flushBatch [(normalize "Paris".data, (⟨"Paris".data, true, ""⟩ : ProperNounResponse))]
        [(⟨"Paris".data, 1⟩ : QueueEntry), (⟨"Bob".data, 2⟩ : QueueEntry)]
        (Except.error ())).1
      = [OutMsg.addReaction 1 EMOJI_CROSS, OutMsg.addReaction 2 EMOJI_CROSS] := by
  constructor
  · rfl
  · rfl

/-- C3 (amended): when a flush actually issues an external call and that call
fails in transport or parsing, the *entire* batch — cached words included —
is left unresolved: no `MarkWordValidity` is sent for any word, every entry
receives a failure cross, and the cache is unchanged.  Cached verdicts are
served only when no external call is needed or the call succeeds. -/
theorem external_failure_leaves_batch_unresolved
    (cache : List (Word × ProperNounResponse)) (entries : List QueueEntry)
    (hcall : (validate_json_batch cache (entries.map QueueEntry.word)
        (Except.error ())).1 ≠ none) :
    (∀ m b, OutMsg.markWordValidity m b ∉
        (flushBatch cache entries (Except.error ())).1)
    ∧ (∀ e ∈ entries, OutMsg.addReaction e.message_id EMOJI_CROSS ∈
        (flushBatch cache entries (Except.error ())).1)
    ∧ (flushBatch cache entries (Except.error ())).2 = cache := by
  have herr := validate_json_batch_error_of_called cache (entries.map QueueEntry.word) hcall
  have hflush : flushBatch cache entries (Except.error ())
      = (processBatch [] entries, cache) := by
    unfold flushBatch
    rw [herr]
  rw [hflush]
  refine ⟨?_, ?_, rfl⟩
  · intro m b hmem
    unfold processBatch at hmem
    rcases List.mem_flatten.mp hmem with ⟨l, hl, hml⟩
    rcases List.mem_map.mp hl with ⟨e, _, hle⟩
    rw [← hle, processEntry_empty] at hml
    simp at hml
  · intro e he
    unfold processBatch
    apply List.mem_flatten.mpr
    refine ⟨processEntry [] e, List.mem_map_of_mem _ he, ?_⟩
    rw [processEntry_empty]
    simp

/-- Witness for the amended C3: a one-entry uncached batch with a failing
call leaves the cache unchanged. -/
theorem external_failure_leaves_batch_unresolved_witness :
    (flushBatch [] [⟨"Bob".data, 2⟩] (Except.error ())).2 = [] :=
  (external_failure_leaves_batch_unresolved [] [⟨"Bob".data, 2⟩] (by decide)).2.2

/-! ### C4: dispatch of resolved words -/

/-- C4 counterexample: a word the external service explicitly rejects gets
the question mark cleared and a failure cross, but GameState is never told —
no `MarkWordValidity` message (in particular none with `is_valid = false`) is
emitted, so no `Pending → Invalid` transition happens. -/
theorem rejected_word_not_marked_invalid :
    processEntry [("Bob".data, (⟨"Bob".data, false, ""⟩ : ProperNounResponse))] ⟨"Bob".data, 2⟩
      = [OutMsg.deleteReaction 2 EMOJI_QUESTION, OutMsg.addReaction 2 EMOJI_CROSS]
    ∧ ¬ (OutMsg.markWordValidity 2 false
        ∈ processEntry [("Bob".data, (⟨"Bob".data, false, ""⟩ : ProperNounResponse))] ⟨"Bob".data, 2⟩) := by
  constructor
  · rfl
  · decide

/-- C4 (amended): for every word resolved by a batch flush, a confirmed word
yields `MarkWordValidity(valid = true)` to GameState plus a success
checkmark, while an explicitly rejected word yields only the failure cross —
GameState is not notified, and a flush never emits `MarkWordValidity` with
`is_valid = false` for any entry. -/
theorem resolved_word_dispatch :
    (∀ (results : List (Word × ProperNounResponse)) (e : QueueEntry)
        (resp : ProperNounResponse), mlookup results e.word = some resp →
      processEntry results e =
        if resp.is_proper_noun then
          [OutMsg.deleteReaction e.message_id EMOJI_QUESTION,
           OutMsg.markWordValidity e.message_id true,
           OutMsg.addReaction e.message_id EMOJI_CHECK]
        else
          [OutMsg.deleteReaction e.message_id EMOJI_QUESTION,
           OutMsg.addReaction e.message_id EMOJI_CROSS])
    ∧ (∀ (results : List (Word × ProperNounResponse)) (entries : List QueueEntry)
        (m : Nat), OutMsg.markWordValidity m false ∉ processBatch results entries) := by
  constructor
  · intro results e resp hfound
    unfold processEntry
    rw [hfound]
  · intro results entries m hmem
    unfold processBatch at hmem
    rcases List.mem_flatten.mp hmem with ⟨l, hl, hml⟩
    rcases List.mem_map.mp hl with ⟨e, _, hle⟩
    rw [← hle] at hml
    unfold processEntry at hml
    split at hml
    · split at hml <;> simp at hml
    · simp at hml

/-- Witness for the amended C4 at a concrete confirmed verdict. -/
theorem resolved_word_dispatch_witness :
    processEntry [("Paris".data, (⟨"Paris".data, true, ""⟩ : ProperNounResponse))] ⟨"Paris".data, 5⟩
      = [OutMsg.deleteReaction 5 EMOJI_QUESTION,
         OutMsg.markWordValidity 5 true,
         OutMsg.addReaction 5 EMOJI_CHECK] := by
  have h := resolved_word_dispatch.1 [("Paris".data, (⟨"Paris".data, true, ""⟩ : ProperNounResponse))]
    ⟨"Paris".data, 5⟩ (⟨"Paris".data, true, ""⟩ : ProperNounResponse) (by decide)
  rw [if_pos rfl] at h
  exact h

/-! ### C6: when the batch scheduler flushes -/

/-- The scheduling state of `LLMValidatorActor`: the queue, the time since
the last flush (`last_batch_time.elapsed()`, in seconds), and the configured
thresholds. -/
structure SchedState where
  queue : List QueueEntry
  elapsed_since_last_batch : Nat
  max_batch_size : Nat
  batch_timeout_secs : Nat
deriving DecidableEq

/-- `LLMValidatorActor::should_trigger_batch`: the queue reached the maximum
batch size, or the queue is non-empty and the timeout has elapsed. -/
def should_trigger_batch (s : SchedState) : Bool :=
  decide (s.queue.length ≥ s.max_batch_size)
    || (!s.queue.isEmpty && decide (s.elapsed_since_last_batch > s.batch_timeout_secs))

/-- The dequeue loop of `Handler<TriggerBatchValidation>`: pop entries until
the accumulated batch reaches `max_batch_size`. -/
def dequeueLoop : List QueueEntry → Nat → List QueueEntry → List QueueEntry × List QueueEntry
  | [], _, acc => (acc, [])
  | e :: rest, maxB, acc =>
    if (acc ++ [e]).length ≥ maxB then (acc ++ [e], rest)
    else dequeueLoop rest maxB (acc ++ [e])

/-- `Handler<TriggerBatchValidation>` up to the dispatch: an empty queue is a
no-op; otherwise dequeue a batch and reset the flush timer.  `some batch`
means a flush happened. -/
def handleTriggerBatch (s : SchedState) : SchedState × Option (List QueueEntry) :=
  if s.queue = [] then (s, none)
  else
    let d := dequeueLoop s.queue s.max_batch_size []
    ({ s with queue := d.2, elapsed_since_last_batch := 0 }, some d.1)

/-- One firing of the `run_interval` poll: check the trigger condition and,
when it holds, process the resulting `TriggerBatchValidation`. -/
def pollCheck (s : SchedState) : SchedState × Option (List QueueEntry) :=
  if should_trigger_batch s then handleTriggerBatch s else (s, none)

/-- `Handler<ValidateProperNoun>`: enqueue, then check the trigger condition
and, when it holds, process the resulting `TriggerBatchValidation`. -/
def enqueueCheck (s : SchedState) (e : QueueEntry) : SchedState × Option (List QueueEntry) :=
  pollCheck { s with queue := s.queue ++ [e] }

/-- C6 counterexample: with an empty queue and the timeout long exceeded
(elapsed 100 > timeout 10), the claim's trigger condition holds, yet no flush
occurs at the poll. -/
theorem timeout_alone_does_not_flush_empty_queue :
    (100 : Nat) > (10 : Nat)
    ∧ (pollCheck ⟨[], 100, 2, 10⟩).2 = none := by
  constructor
  · decide
  · rfl

/-- C6 (amended): a flush occurs at a poll check exactly when the queue is
non-empty and (the queue has reached the maximum batch size, or the elapsed
time since the last flush exceeds the timeout); at an enqueue check exactly
when the grown queue length reaches the maximum batch size or the timeout
has elapsed.  A flush never occurs when neither trigger condition holds. -/
theorem batch_flush_characterization (s : SchedState) (e : QueueEntry) :
    ((pollCheck s).2 ≠ none ↔
      s.queue ≠ [] ∧ (s.queue.length ≥ s.max_batch_size
        ∨ s.elapsed_since_last_batch > s.batch_timeout_secs))
    ∧ ((enqueueCheck s e).2 ≠ none ↔
      (s.queue.length + 1 ≥ s.max_batch_size
        ∨ s.elapsed_since_last_batch > s.batch_timeout_secs)) := by
  have hchar : ∀ t : SchedState, ((pollCheck t).2 ≠ none ↔
      t.queue ≠ [] ∧ (t.queue.length ≥ t.max_batch_size
        ∨ t.elapsed_since_last_batch > t.batch_timeout_secs)) := by
    intro t
    simp only [pollCheck, handleTriggerBatch, should_trigger_batch]
    by_cases hq : t.queue = [] <;> by_cases hsz : t.queue.length ≥ t.max_batch_size <;>
      by_cases hto : t.elapsed_since_last_batch > t.batch_timeout_secs <;>
      simp [hq, hsz, hto]
  constructor
  · exact hchar s
  · rw [show enqueueCheck s e = pollCheck { s with queue := s.queue ++ [e] } from rfl]
    rw [hchar { s with queue := s.queue ++ [e] }]
    simp

end Sanabotti
